import Mathlib

/-!
Verification development for the academic chatbot backend
(`backend/utils.py`, `backend/document_strategies.py`, `backend/table_extractor.py`,
`backend/main.py`, `backend/ingest.py`).

The Python code is shallowly embedded: strings are `String`/`List Char`,
Python `float` scores are modelled as `ℚ` (all constants involved are small
and only relative order matters), the regular expressions used by the code
(`Pasal\s+\d+`, `[Pp]asal\s+(\d+)`, the month alternation with `\b` and
`re.IGNORECASE`, `(?:Month...)\s+\d{4}`, `\b[a-zA-Z]{3,}\b`) are embedded as
executable maximal-munch scanners with leftmost, non-overlapping semantics,
and fallible code paths return `Except`.  External collaborators
(`RecursiveCharacterTextSplitter.split_text`, `pdfplumber` table detection,
the vector index `similarity_search`) are taken as function parameters.
-/

/-! ### Character classes (ASCII model of Python `\s`, `\d`, `\w`, `[a-zA-Z]`, `str.lower`) -/

/-- Python `\s` / `str.strip` whitespace, restricted to ASCII. -/
def isSpaceChar (c : Char) : Bool :=
  c = ' ' || c = '\t' || c = '\n' || c = '\r' || c = '\x0b' || c = '\x0c'

/-- Python `\d`, restricted to ASCII digits. -/
def isDigitChar (c : Char) : Bool :=
  '0' ≤ c && c ≤ '9'

/-- Python `[a-zA-Z]`. -/
def isAlphaChar (c : Char) : Bool :=
  ('a' ≤ c && c ≤ 'z') || ('A' ≤ c && c ≤ 'Z')

/-- Python `\w` (ASCII): letters, digits and underscore. -/
def isWordChar (c : Char) : Bool :=
  isAlphaChar c || isDigitChar c || c = '_'

/-- Python `str.lower` on one ASCII character. -/
def pyLower (c : Char) : Char :=
  if 'A' ≤ c && c ≤ 'Z' then Char.ofNat (c.toNat + 32) else c

/-- Python `str.strip()`: drop leading and trailing whitespace. -/
def pstrip (s : List Char) : List Char :=
  ((s.dropWhile isSpaceChar).reverse.dropWhile isSpaceChar).reverse

/-- Python `int` on a digit string (`int(match.group(1))`). -/
def digitsToNat (ds : List Char) : Nat :=
  ds.foldl (fun a c => 10 * a + (c.toNat - 48)) 0

/-- Python substring test `needle in hay` (`''` is a substring of everything). -/
def containsSub (hay needle : List Char) : Bool :=
  if needle.isPrefixOf hay then true
  else
    match hay with
    | [] => false
    | _ :: t => containsSub t needle

/-! ### Embedded regex scanners

`findFrom matchAt prev s` finds the leftmost match of the anchored matcher
`matchAt` in `s`; `prev` is the character just before `s` in the surrounding
string (needed for `\b`).  A matcher returns `(matched, rest)`.
`reSplitFuel` is Python `re.split` with the whole pattern in one capture
group: text parts and matched parts alternate, the matches being the
odd-indexed elements.  Fuel (`s.length` at top level) bounds the number of
matches; every matcher below consumes at least one character per match. -/

def findFrom (matchAt : Option Char → List Char → Option (List Char × List Char)) :
    Option Char → List Char → Option (List Char × List Char × List Char)
  | _, [] => none
  | prev, c :: rest =>
    match matchAt prev (c :: rest) with
    | some (m, r) => some ([], m, r)
    | none =>
      match findFrom matchAt (some c) rest with
      | some (p, m, r) => some (c :: p, m, r)
      | none => none

def reSplitFuel (matchAt : Option Char → List Char → Option (List Char × List Char)) :
    Nat → Option Char → List Char → List (List Char)
  | 0, _, s => [s]
  | fuel + 1, prev, s =>
    match findFrom matchAt prev s with
    | none => [s]
    | some (p, m, r) =>
      p :: m :: reSplitFuel matchAt fuel
        (match (p ++ m).getLast? with | some c => some c | none => prev) r

/-- Python `re.split(r'(pattern)', s)`. -/
def reSplit (matchAt : Option Char → List Char → Option (List Char × List Char))
    (s : List Char) : List (List Char) :=
  reSplitFuel matchAt s.length none s

/-- Odd-indexed elements of a list (the captured separators of `re.split`). -/
def odds : List α → List α
  | [] => []
  | [_] => []
  | _ :: b :: rest => b :: odds rest

/-- Python `re.findall(r'pattern', s)`: exactly the captured separators of
`re.split(r'(pattern)', s)`, in order. -/
def reFindall (matchAt : Option Char → List Char → Option (List Char × List Char))
    (s : List Char) : List (List Char) :=
  odds (reSplit matchAt s)

/-! ### The concrete matchers -/

/-- Anchored matcher for `Pasal\s+\d+` (and, with `lower = true`, for
`[Pp]asal\s+\d+`): literal word, one or more whitespace, one or more digits,
greedy. -/
def matchPasalAfter (lower : Bool) (s : List Char) : Option (List Char × List Char) :=
  match s with
  | c0 :: c1 :: c2 :: c3 :: c4 :: rest =>
    if (c0 = 'P' || (lower && c0 = 'p')) && c1 = 'a' && c2 = 's' && c3 = 'a' && c4 = 'l' then
      let sp := rest.takeWhile isSpaceChar
      let r1 := rest.dropWhile isSpaceChar
      let ds := r1.takeWhile isDigitChar
      let r2 := r1.dropWhile isDigitChar
      if !sp.isEmpty && !ds.isEmpty then
        some (c0 :: c1 :: c2 :: c3 :: c4 :: (sp ++ ds), r2)
      else none
    else none
  | _ => none

/-- `Pasal\s+\d+` as used by `document_strategies.py` (case sensitive). -/
def matchPasalCap (_ : Option Char) (s : List Char) : Option (List Char × List Char) :=
  matchPasalAfter false s

/-- `[Pp]asal\s+\d+` as used by `utils.parse_query`. -/
def matchPasalCI (_ : Option Char) (s : List Char) : Option (List Char × List Char) :=
  matchPasalAfter true s

/-- The digits of a `Pasal\s+(\d+)` match, as `int(match.group(1))`. -/
def pasalNum (m : List Char) : Nat :=
  digitsToNat (m.dropWhile fun c => !(isDigitChar c))

/-- `months_id` from `utils.parse_query` (also the month list of
`document_strategies.py` and `table_extractor.py`). -/
def months_id : List String :=
  ["Januari", "Februari", "Maret", "April", "Mei", "Juni",
   "Juli", "Agustus", "September", "Oktober", "November", "Desember"]

/-- Case-insensitive literal match of `name` at the head of `s`;
returns the matched (original-casing) characters and the rest. -/
def tryLitCI (name : List Char) (s : List Char) : Option (List Char × List Char) :=
  let m := s.take name.length
  if m.length = name.length && m.map pyLower = name.map pyLower then
    some (m, s.drop name.length)
  else none

/-- Anchored matcher for the month pattern of `utils.parse_query`:
`\b(Januari|...|Desember)\b` with `re.IGNORECASE`.  `prev` is the character
before the match position (`none` at the start of the string).  No canonical
month name is a prefix of another, so trying the alternatives in order is
the regex alternation. -/
def matchMonthB (prev : Option Char) (s : List Char) : Option (List Char × List Char) :=
  if (match prev with | some c => isWordChar c | none => false) then none
  else
    months_id.findSome? fun name =>
      match tryLitCI name.data s with
      | some (m, r) =>
        if (match r.head? with | some c => isWordChar c | none => false) then none
        else some (m, r)
      | none => none

/-- Anchored matcher for the month-year pattern of
`KalenderStrategy.chunk`: `(?:Januari|...|Desember)\s+\d{4}`
(case sensitive, no word boundary). -/
def matchMonthYear (_ : Option Char) (s : List Char) : Option (List Char × List Char) :=
  months_id.findSome? fun name =>
    if name.data.isPrefixOf s then
      let rest := s.drop name.data.length
      let sp := rest.takeWhile isSpaceChar
      let r1 := rest.dropWhile isSpaceChar
      if !sp.isEmpty && (r1.take 4).length = 4 && (r1.take 4).all isDigitChar then
        some (name.data ++ sp ++ r1.take 4, r1.drop 4)
      else none
    else none

/-! ### `utils.parse_query` -/

/-- The result dictionary of `utils.parse_query`. -/
structure QueryInfo where
  doc_type : String
  article_numbers : List Nat
  months : List String
  dates : List String
  query_type : String
  keywords : List String
deriving DecidableEq

/-- A Python exception escaping the embedded code. -/
inductive PyError where
  | valueError
deriving DecidableEq

/-- `kalender_keywords` from `utils.parse_query`. -/
def kalender_keywords : List String :=
  ["jadwal", "acara", "event", "kegiatan", "libur", "ujian",
   "semester", "kalender", "kapan", "tanggal"]

/-- `stopwords` from `utils.parse_query`. -/
def stopwords : List String :=
  ["apa", "yang", "di", "ke", "dari", "dan", "atau", "adalah",
   "sebutkan", "jelaskan", "dokumen", "kapan", "berapa", "tentang"]

/-- Maximal runs of `\w` characters of a string (accumulator-passing so that
the definition is structural and kernel-reducible). -/
def wordRunsAux : List Char → List Char → List (List Char)
  | [], acc => if acc.isEmpty then [] else [acc.reverse]
  | c :: cs, acc =>
    if isWordChar c then wordRunsAux cs (c :: acc)
    else (if acc.isEmpty then [] else [acc.reverse]) ++ wordRunsAux cs []

/-- `re.findall(r'\b[a-zA-Z]{3,}\b', query.lower())` followed by the stopword
filter.  A `\b`-delimited match of `[a-zA-Z]{3,}` is exactly a maximal
`\w`-run that is purely alphabetic and has length at least 3 (a run
containing a digit or underscore has no word boundary inside it, so no part
of it can match). -/
def keywordsOf (query : String) : List String :=
  let ws := wordRunsAux (query.data.map pyLower) []
  ((ws.filter fun w => 3 ≤ w.length && w.all isAlphaChar).map
    fun w => (⟨w⟩ : String)).filter fun w => !(stopwords.contains w)

/-- Test `any(kw in query.lower() for kw in kalender_keywords)`. -/
def kalenderKeywordHit (query : String) : Bool :=
  kalender_keywords.any fun kw => containsSub (query.data.map pyLower) kw.data

/-- `utils.parse_query`.

The article branch returns early.  Otherwise the month scan runs, and then
the date scan `re.findall(date_pattern, query, re.IGNORECASE)` with
`date_pattern = r'(?:tanggal\s+)?(\d{1,2})(?:\s+(\b(Januari|...)\b))?'`.
That pattern has three capture groups (the day, the outer optional month
group, and the month alternation nested inside it), so `re.findall` returns
3-tuples; the pattern matches somewhere iff the query contains a digit.
The source then runs `for day, month in date_matches:`, which raises
`ValueError` (too many values to unpack) on any non-empty match list, i.e.
whenever the query contains a digit.  Consequently, in every normal return
the `dates` list is still `[]` and the calendar-keyword and keyword
extraction steps are only reached by digit-free queries. -/
def parse_query (query : String) : Except PyError QueryInfo :=
  let arts := (reFindall matchPasalCI query.data).map pasalNum
  if arts.isEmpty then
    let ms := (reFindall matchMonthB query.data).map fun m => (⟨m⟩ : String)
    let dt1 := if ms.isEmpty then "general" else "kalender"
    let qt1 := if ms.isEmpty then "general" else "specific_date"
    if query.data.any isDigitChar then
      .error .valueError
    else
      let dt2 := if kalenderKeywordHit query && dt1 = "general" then "kalender" else dt1
      .ok ⟨dt2, [], ms, [], qt1, keywordsOf query⟩
  else
    .ok ⟨"peraturan", arts, [], [],
      (if 1 < arts.length then "comparison" else "specific_article"), []⟩

/-! ### `document_strategies.PeraturanStrategy` -/

/-- A chunk produced by `PeraturanStrategy.chunk` (the `metadata` dictionary,
which is the caller's base metadata plus the constant `doc_type: 'peraturan'`,
is not modelled; the claims concern `content` and `article_number`). -/
structure PChunk where
  content : String
  article_number : Option Nat
deriving DecidableEq

/-- `PeraturanStrategy.detect`:
`len(re.findall(r'Pasal\s+\d+', content)) >= 3 or 'peraturan' in filename.lower()`. -/
def PeraturanStrategy.detect (filename content : String) : Bool :=
  3 ≤ (reFindall matchPasalCap content.data).length
    || containsSub (filename.data.map pyLower) "peraturan".data

/-- One loop iteration of `PeraturanStrategy.chunk`; the state is
`(chunks, current_chunk, current_article)`.  `splitText` stands for
`RecursiveCharacterTextSplitter(chunk_size=maxSize, chunk_overlap=200,
separators=["\n\n", "\n", ". ", " ", ""]).split_text`, an external
collaborator. -/
def peraturanStep (splitText : String → List String) (maxSize : Nat)
    (st : List PChunk × List Char × Option Nat) (part : List Char) :
    List PChunk × List Char × Option Nat :=
  let (chunks, cur, art) := st
  if (matchPasalAfter false (pstrip part)).isSome then
    let chunks1 := if (pstrip cur).isEmpty then chunks else chunks ++ [⟨⟨pstrip cur⟩, art⟩]
    let art1 := match findFrom matchPasalCap none part with
      | some (_, m, _) => some (pasalNum m)
      | none => none
    (chunks1, part, art1)
  else
    let cur1 := cur ++ part
    if maxSize < cur1.length then
      let subs := splitText ⟨cur1⟩
      (chunks ++ subs.dropLast.map (fun sc => ⟨sc, art⟩),
       (match subs.getLast? with | some l => l.data | none => []), art)
    else (chunks, cur1, art)

/-- `PeraturanStrategy.chunk`: split at every `Pasal\s+\d+` boundary,
accumulate, overflow to the external splitter, flush the final accumulator. -/
def PeraturanStrategy.chunk (splitText : String → List String)
    (text : String) (maxSize : Nat) : List PChunk :=
  let parts := reSplit matchPasalCap text.data
  let st := parts.foldl (peraturanStep splitText maxSize) ([], [], none)
  if (pstrip st.2.1).isEmpty then st.1 else st.1 ++ [⟨⟨pstrip st.2.1⟩, st.2.2⟩]

/-! ### `document_strategies.KalenderStrategy` -/

/-- A chunk produced by `KalenderStrategy.chunk` (again without the constant
part of the metadata dictionary). -/
structure KChunk where
  content : String
  month : Option String
deriving DecidableEq

/-- One loop iteration of the month-based text split (STRATEGY 2 in
`KalenderStrategy.chunk`); state is `(chunks, current_chunk, current_month)`. -/
def kalenderStep (splitText : String → List String) (maxSize : Nat)
    (st : List KChunk × List Char × Option String) (part : List Char) :
    List KChunk × List Char × Option String :=
  let (chunks, cur, mon) := st
  match matchMonthYear none (pstrip part) with
  | some (m, _) =>
    let chunks1 := if (pstrip cur).isEmpty then chunks else chunks ++ [⟨⟨pstrip cur⟩, mon⟩]
    (chunks1, part, some ⟨m⟩)
  | none =>
    let cur1 := cur ++ part
    if maxSize < cur1.length then
      let subs := splitText ⟨cur1⟩
      (chunks ++ subs.dropLast.map (fun sc => ⟨sc, mon⟩),
       (match subs.getLast? with | some l => l.data | none => []), mon)
    else (chunks, cur1, mon)

/-- The month-based text split of `KalenderStrategy.chunk`
(lines 113-156 of `document_strategies.py`). -/
def kalenderTextSplit (splitText : String → List String)
    (text : String) (maxSize : Nat) : List KChunk :=
  let parts := reSplit matchMonthYear text.data
  let st := parts.foldl (kalenderStep splitText maxSize) ([], [], none)
  if (pstrip st.2.1).isEmpty then st.1 else st.1 ++ [⟨⟨pstrip st.2.1⟩, st.2.2⟩]

/-- `KalenderStrategy.chunk`.  STRATEGY 1 of the source consults
`pdf_has_tables(pdf_path, min_tables=1)` when a `pdf_path` is supplied, but
its body is `pass` ("We skip for now and fallback to text-based"), so the
result of the check — modelled by the external oracle `pdf_has_tables` — is
discarded and the month-based text split always runs. -/
def KalenderStrategy.chunk (splitText : String → List String)
    (text : String) (maxSize : Nat) (pdf_path : Option String)
    (pdf_has_tables : String → Bool) : List KChunk :=
  let _hasTables : Bool :=
    match pdf_path with
    | some p => pdf_has_tables p
    | none => false
  kalenderTextSplit splitText text maxSize

/-! ### `table_extractor.CalendarTableExtractor.table_to_chunks`

A table row is a list of `(column label, cell)` pairs in column order; a
cell is `none` for Python `None`, `some s` for a string cell.  The chunk's
`content` is modelled; the per-row metadata (source/page/months/dates
enrichment) does not influence which rows produce chunks nor their content,
and is not needed by the claims. -/

/-- The processed cell text:
`str(value).strip() if value and str(value) != 'nan' else ''`. -/
def cellStr (v : Option String) : String :=
  match v with
  | none => ""
  | some s => if s = "" || s = "nan" then "" else ⟨pstrip s.data⟩

/-- The `row_texts` accumulation loop over one row. -/
def rowTexts (row : List (String × Option String)) : List String :=
  row.foldl
    (fun acc cv =>
      if "_".data.isPrefixOf cv.1.data then acc
      else if cellStr cv.2 = "" then acc
      else acc ++ [cv.1 ++ ": " ++ cellStr cv.2])
    []

/-- `CalendarTableExtractor.table_to_chunks`, restricted to the chunk
contents (one `" | "`-joined line per row that produced any `row_texts`). -/
def table_to_chunks (rows : List (List (String × Option String))) : List String :=
  rows.foldl
    (fun acc row =>
      if (rowTexts row).isEmpty then acc
      else acc ++ [String.intercalate " | " (rowTexts row)])
    []

/-- The specification-worded version of 4.3 Table-to-Chunk conversion: each
data row with at least one non-empty (non-internal) cell becomes exactly one
chunk joining `"<column name>: <value>"` with `" | "` in column order,
skipping underscore-prefixed internal columns and empty cells; fully-empty
rows are skipped. -/
def table_to_chunks_spec (rows : List (List (String × Option String))) : List String :=
  rows.filterMap fun row =>
    let cells := row.filter fun cv => !("_".data.isPrefixOf cv.1.data) && !(cellStr cv.2 = "")
    if cells.isEmpty then none
    else some (String.intercalate " | " (cells.map fun cv => cv.1 ++ ": " ++ cellStr cv.2))

/-! ### `utils.rerank_results` and `main.chat_endpoint` -/

/-- A retrieved document: `page_content` plus the `article_number` metadata
entry read by the re-ranker (`doc.metadata.get('article_number')`). -/
structure Doc where
  page_content : String
  article_number : Option Nat
deriving DecidableEq

/-- The additive score of `utils.rerank_results` for one document.  Python
accumulates it in a `float`; every summand here is exactly representable or
a small decimal, and only the relative order of scores matters, so the score
is modelled in `ℚ`. -/
def scoreDoc (qi : QueryInfo) (d : Doc) : ℚ :=
  let content := d.page_content.data.map pyLower
  (qi.article_numbers.map fun n =>
      (if containsSub content ("pasal ".data ++ (Nat.toDigits 10 n))
          || containsSub content ("pasal  ".data ++ (Nat.toDigits 10 n))
        then (100 : ℚ) else 0)
      + (if d.article_number = some n then (200 : ℚ) else 0)).sum
  + (qi.keywords.map fun k =>
      if containsSub content k.data then (5 : ℚ) else 0).sum
  + (content.length : ℚ) / 1000

/-- `utils.rerank_results`: stable sort by score, descending
(`scored_results.sort(key=lambda x: x[0], reverse=True)`). -/
def rerank_results (qi : QueryInfo) (docs : List Doc) : List Doc :=
  @List.insertionSort Doc (fun a b => scoreDoc qi b ≤ scoreDoc qi a)
    (fun _ _ => inferInstanceAs (Decidable _)) docs

/-- The metadata-equality filter of a `similarity_search` call in
`main.chat_endpoint`. -/
inductive SearchFilter where
  | article (n : Nat)
  | month (m : String)
  | docType (t : String)
deriving DecidableEq

/-- The hybrid-search portion of `main.chat_endpoint` (lines 40-89):
Strategy A (article-number filters with semantic fallback), Strategy B
(calendar month filters with calendar-wide fallback), Strategy C (plain
semantic search).  `search question k filter` stands for
`vector_db.similarity_search(question, k=k, filter=filter)`. -/
def hybrid_search (search : String → Nat → Option SearchFilter → List Doc)
    (qi : QueryInfo) (question : String) : List Doc :=
  if !qi.article_numbers.isEmpty then
    let gathered := qi.article_numbers.flatMap fun n => search question 5 (some (.article n))
    if gathered.isEmpty then search question 10 none else gathered
  else if qi.doc_type = "kalender" then
    let gathered := qi.months.flatMap fun m => search question 5 (some (.month m))
    if gathered.isEmpty then search question 10 (some (.docType "kalender")) else gathered
  else
    search question 10 none

/-! ## Claims -/

/-- C1: the Query Analyzer is claimed never to fail, in particular on a
question containing a 1-2 digit number.  The code contradicts this: on the
question `"tanggal 15"` (no article pattern, so no early return) the date
scan `re.findall` returns non-empty 3-tuples and
`for day, month in date_matches` raises `ValueError`. -/
theorem parse_query_valueerror_on_digits :
    parse_query "tanggal 15" = .error .valueError := by
  rfl

/-- C10: every result `parse_query` actually returns satisfies the
invariant: `doc_type = 'peraturan'` exactly when `article_numbers` is
non-empty, and a `'general'` result has empty months, dates and
article_numbers and `query_type = 'general'`. -/
theorem parse_query_invariant (q : String) (r : QueryInfo)
    (h : parse_query q = .ok r) :
    (r.doc_type = "peraturan" ↔ r.article_numbers ≠ [])
    ∧ (r.doc_type = "general" →
        r.months = [] ∧ r.dates = [] ∧ r.article_numbers = []
          ∧ r.query_type = "general") := by
  unfold parse_query at h
  by_cases harts : (List.map pasalNum (reFindall matchPasalCI q.data)).isEmpty
  · by_cases hdig : q.data.any isDigitChar
    · simp [harts, hdig] at h
    · by_cases hms : (List.map (fun m => (⟨m⟩ : String))
          (reFindall matchMonthB q.data)).isEmpty
      · by_cases hhit : kalenderKeywordHit q
        · simp [harts, hdig, hms, hhit] at h
          subst h
          simp [List.isEmpty_iff.mp hms]
        · simp [harts, hdig, hms, hhit] at h
          subst h
          simp [List.isEmpty_iff.mp hms]
      · simp [harts, hdig, hms] at h
        subst h
        simp
  · simp [harts] at h
    subst h
    simpa [List.isEmpty_iff] using harts

/-- Witness for C10 at the concrete question `"apa"`. -/
theorem parse_query_invariant_witness :
    (("general" : String) = "peraturan" ↔ ([] : List Nat) ≠ [])
    ∧ (("general" : String) = "general" →
        ([] : List String) = [] ∧ ([] : List String) = [] ∧ ([] : List Nat) = []
          ∧ ("general" : String) = "general") :=
  parse_query_invariant "apa" ⟨"general", [], [], [], "general", []⟩ (by rfl)

/-- If `List.findSome?` produces a value, some list element produced it. -/
theorem findSome_mem {α β : Type} (f : α → Option β) (b : β) :
    ∀ l : List α, l.findSome? f = some b → ∃ a ∈ l, f a = some b := by
  intro l
  induction l with
  | nil => intro h; simp [List.findSome?] at h
  | cons a t ih =>
    intro h
    cases hfa : f a with
    | some b0 =>
      simp only [List.findSome?_cons, hfa] at h
      exact ⟨a, by simp, by rw [hfa, h]⟩
    | none =>
      simp only [List.findSome?_cons, hfa] at h
      obtain ⟨a1, ha1, hfa1⟩ := ih h
      exact ⟨a1, by simp [ha1], hfa1⟩

/-- Whatever `findFrom` reports as the match was produced by the matcher. -/
theorem findFrom_gives_match
    (matchAt : Option Char → List Char → Option (List Char × List Char))
    (m r : List Char) :
    ∀ (s : List Char) (prev : Option Char) (p : List Char),
      findFrom matchAt prev s = some (p, m, r) →
      ∃ pv s', matchAt pv s' = some (m, r) := by
  intro s
  induction s with
  | nil => intro prev p h; simp [findFrom] at h
  | cons c rest ih =>
    intro prev p h
    rw [findFrom] at h
    cases hma : matchAt prev (c :: rest) with
    | some mr =>
      obtain ⟨m0, r0⟩ := mr
      rw [hma] at h
      simp at h
      exact ⟨prev, c :: rest, by rw [hma, h.2.1, h.2.2]⟩
    | none =>
      rw [hma] at h
      cases hf : findFrom matchAt (some c) rest with
      | some pmr =>
        obtain ⟨p0, m0, r0⟩ := pmr
        rw [hf] at h
        simp at h
        obtain ⟨-, h2, h3⟩ := h
        exact ih (some c) p0 (by rw [hf, h2, h3])
      | none => rw [hf] at h; simp at h

/-- Every match reported by a `reSplitFuel` run (hence by `reFindall`) was
produced by the matcher. -/
theorem reFindall_gives_match
    (matchAt : Option Char → List Char → Option (List Char × List Char))
    (m : List Char) :
    ∀ (fuel : Nat) (prev : Option Char) (s : List Char),
      m ∈ odds (reSplitFuel matchAt fuel prev s) →
      ∃ pv s' r, matchAt pv s' = some (m, r) := by
  intro fuel
  induction fuel with
  | zero => intro prev s h; simp [reSplitFuel, odds] at h
  | succ fuel ih =>
    intro prev s h
    rw [reSplitFuel] at h
    cases hf : findFrom matchAt prev s with
    | none => rw [hf] at h; simp [odds] at h
    | some pmr =>
      obtain ⟨p, m0, r⟩ := pmr
      rw [hf] at h
      rw [odds] at h
      rcases List.mem_cons.mp h with h1 | h2
      · subst h1
        obtain ⟨pv, s', hm⟩ := findFrom_gives_match matchAt m r s prev p hf
        exact ⟨pv, s', r, hm⟩
      · exact ih _ r h2

/-- Any match of the embedded `\\b(Januari|...|Desember)\\b` pattern is, up to
letter case, one of the twelve canonical month names. -/
theorem matchMonthB_canonical (prev : Option Char) (s m r : List Char)
    (h : matchMonthB prev s = some (m, r)) :
    ∃ c ∈ months_id, m.map pyLower = c.data.map pyLower := by
  unfold matchMonthB at h
  split at h
  · simp at h
  · obtain ⟨name, hname, hinner⟩ := findSome_mem _ _ _ h
    cases htl : tryLitCI name.data s with
    | none => rw [htl] at hinner; simp at hinner
    | some mr =>
      obtain ⟨m0, r0⟩ := mr
      simp only [htl] at hinner
      split at hinner
      · simp at hinner
      · simp only [Option.some.injEq, Prod.mk.injEq] at hinner
        obtain ⟨hm0, hr0⟩ := hinner
        simp only [tryLitCI] at htl
        split at htl
        · rename_i hcond
          simp only [Option.some.injEq, Prod.mk.injEq] at htl
          refine ⟨name, hname, ?_⟩
          rw [← hm0, ← htl.1]
          simp only [Bool.and_eq_true, decide_eq_true_eq] at hcond
          exact hcond.2
        · simp at htl

/-- C6 (counterexample): on the question
`"jelaskan Pasal 5 tentang mahasiswa"` the analyzer hits the regulation
early return with empty `keywords`, although the claimed tokenization of
the question is `["pasal", "mahasiswa"]`. -/
theorem parse_query_keywords_counterexample :
    parse_query "jelaskan Pasal 5 tentang mahasiswa"
      = .ok ⟨"peraturan", [5], [], [], "specific_article", []⟩
    ∧ keywordsOf "jelaskan Pasal 5 tentang mahasiswa" = ["pasal", "mahasiswa"]
    ∧ ([] : List String) ≠ ["pasal", "mahasiswa"] :=
  ⟨by rfl, by rfl, by simp⟩

/-- C6 (amended): whenever `parse_query` returns at all, its `keywords` are
the stopword-filtered maximal alphabetic runs of the lowercased question
except that a question matching `[Pp]asal\s+\d+` takes the early regulation
return, which leaves `keywords` empty. -/
theorem parse_query_keywords (q : String) (r : QueryInfo)
    (h : parse_query q = .ok r) :
    r.keywords = if (reFindall matchPasalCI q.data).isEmpty then keywordsOf q else [] := by
  unfold parse_query at h
  by_cases harts : (List.map pasalNum (reFindall matchPasalCI q.data)).isEmpty
  · have harts' : (reFindall matchPasalCI q.data).isEmpty := by
      simpa [List.isEmpty_iff] using harts
    by_cases hdig : q.data.any isDigitChar
    · simp [harts, hdig] at h
    · simp [harts, hdig] at h
      subst h
      simp [harts']
  · have harts' : ¬ (reFindall matchPasalCI q.data).isEmpty := by
      simpa [List.isEmpty_iff] using harts
    simp [harts] at h
    subst h
    simp [harts']

/-- Witness for C6 (amended) at the concrete question `"apa jadwal libur"`. -/
theorem parse_query_keywords_witness :
    (QueryInfo.mk "kalender" [] [] [] "general" ["jadwal", "libur"]).keywords
      = if (reFindall matchPasalCI "apa jadwal libur".data).isEmpty
          then keywordsOf "apa jadwal libur" else [] :=
  parse_query_keywords "apa jadwal libur"
    ⟨"kalender", [], [], [], "general", ["jadwal", "libur"]⟩ (by rfl)

/-- C9 (counterexample): the `months` entries keep the casing used in the
question; for `"libur bulan januari"` the recorded month is `"januari"`,
which is not one of the canonical month names. -/
theorem parse_query_months_casing_counterexample :
    parse_query "libur bulan januari"
      = .ok ⟨"kalender", [], ["januari"], [], "specific_date",
             ["libur", "bulan", "januari"]⟩
    ∧ ¬ ("januari" ∈ months_id) :=
  ⟨by rfl, by decide⟩

/-- C9 (amended): every recorded month is a month-name occurrence exactly as
written in the question, hence equal to one of the twelve canonical names up
to letter case (in occurrence order, duplicates preserved). -/
theorem parse_query_months_canonical (q : String) (r : QueryInfo)
    (h : parse_query q = .ok r) (m : String) (hm : m ∈ r.months) :
    ∃ c ∈ months_id, m.data.map pyLower = c.data.map pyLower := by
  unfold parse_query at h
  by_cases harts : (List.map pasalNum (reFindall matchPasalCI q.data)).isEmpty
  · by_cases hdig : q.data.any isDigitChar
    · simp [harts, hdig] at h
    · simp [harts, hdig] at h
      subst h
      simp at hm
      obtain ⟨l, hl, hlm⟩ := hm
      obtain ⟨pv, s', r', hmatch⟩ :=
        reFindall_gives_match matchMonthB l q.data.length none q.data hl
      subst hlm
      exact matchMonthB_canonical pv s' l r' hmatch
  · simp [harts] at h
    subst h
    simp at hm

/-- Witness for C9 (amended) at `"libur bulan januari"` and its recorded
month `"januari"`. -/
theorem parse_query_months_canonical_witness :
    ∃ c ∈ months_id, "januari".data.map pyLower = c.data.map pyLower :=
  parse_query_months_canonical "libur bulan januari"
    ⟨"kalender", [], ["januari"], [], "specific_date", ["libur", "bulan", "januari"]⟩
    (by rfl) "januari" (by simp)

/-- Python `str.lower` is idempotent per character. -/
theorem pyLower_idem (c : Char) : pyLower (pyLower c) = pyLower c := by
  unfold pyLower
  split
  · rename_i h
    simp only [Bool.and_eq_true, decide_eq_true_eq] at h
    obtain ⟨h1, h2⟩ := h
    have hA : (65 : Nat) ≤ c.toNat := h1
    have hZ : c.toNat ≤ 90 := h2
    have hv : (c.toNat + 32).isValidChar := by left; omega
    have ht : (Char.ofNat (c.toNat + 32)).toNat = c.toNat + 32 := by
      rw [Char.ofNat, dif_pos hv]
      rfl
    rw [if_neg]
    simp only [Bool.and_eq_true, decide_eq_true_eq, not_and]
    intro _
    show ¬ (Char.ofNat (c.toNat + 32) ≤ 'Z')
    intro hle
    have hle' : (Char.ofNat (c.toNat + 32)).toNat ≤ 90 := hle
    omega
  · rfl

/-- C5 (counterexample): the claim says content containing the article
marker only as `"Pasal 5"` gets no +100 boost; but `rerank_results` lowers
the content first, so the score of such a document for queried article 5 is
`100 + 7/1000`, not `7/1000`, even though the original content does not
contain the lowercase literal `"pasal 5"`. -/
theorem rerank_boost_casing_counterexample :
    scoreDoc ⟨"peraturan", [5], [], [], "specific_article", []⟩ ⟨"Pasal 5", none⟩
      = 100 + 7 / 1000
    ∧ containsSub "Pasal 5".data "pasal 5".data = false := by
  refine ⟨?_, by decide⟩
  rw [scoreDoc]
  norm_num
  rw [if_pos (by decide), if_neg (by decide)]
  norm_num [show ("Pasal 5".data.map pyLower).length = 7 by decide]

/-- C5 (amended): the +100 check is made against the lower-cased content,
so the boost is effectively case-insensitive in the original content: the
whole score is invariant under lower-casing a candidate's content. -/
theorem scoreDoc_casing_invariant (qi : QueryInfo) (s : String) (a : Option Nat) :
    scoreDoc qi ⟨⟨s.data.map pyLower⟩, a⟩ = scoreDoc qi ⟨s, a⟩ := by
  have hcomp : (s.data.map pyLower).map pyLower = s.data.map pyLower := by
    rw [List.map_map]
    exact List.map_congr_left fun c _ => pyLower_idem c
  unfold scoreDoc
  simp only [hcomp]

/-- C4 (counterexample): a candidate without the matching `article_number`
metadata can still sort strictly first.  With queried article 5 and the
keyword list containing `"abc"` 21 times (the analyzer's keyword list keeps
duplicates), the content boosts `100 + 21·5 = 205` of the non-matching
candidate exceed the matching candidate's `200`, so `rerank_results` puts
the non-matching candidate first. -/
theorem rerank_metadata_counterexample :
    rerank_results
        ⟨"peraturan", [5], [], [], "specific_article", List.replicate 21 "abc"⟩
        [⟨"x", some 5⟩, ⟨"pasal 5 abc", none⟩]
      = [⟨"pasal 5 abc", none⟩, ⟨"x", some 5⟩] := by
  have hsA : scoreDoc ⟨"peraturan", [5], [], [], "specific_article", List.replicate 21 "abc"⟩
      ⟨"x", some 5⟩ = 200 + 1 / 1000 := by
    rw [scoreDoc]
    norm_num [List.map_replicate, List.sum_replicate]
    rw [if_neg (by decide), if_neg (by decide)]
    norm_num [show ("x".data.map pyLower).length = 1 by decide]
  have hsB : scoreDoc ⟨"peraturan", [5], [], [], "specific_article", List.replicate 21 "abc"⟩
      ⟨"pasal 5 abc", none⟩ = 205 + 11 / 1000 := by
    rw [scoreDoc]
    norm_num [List.map_replicate, List.sum_replicate]
    rw [if_pos (by decide), if_neg (by decide), if_pos (by decide)]
    norm_num [show ("pasal 5 abc".data.map pyLower).length = 11 by decide]
  have hlt : ¬ (scoreDoc ⟨"peraturan", [5], [], [], "specific_article",
      List.replicate 21 "abc"⟩ ⟨"pasal 5 abc", none⟩
      ≤ scoreDoc ⟨"peraturan", [5], [], [], "specific_article",
      List.replicate 21 "abc"⟩ ⟨"x", some 5⟩) := by
    rw [hsA, hsB]
    norm_num
  unfold rerank_results
  simp only [List.insertionSort, List.orderedInsert, if_neg hlt]

/-- C4 (amended): with exactly one queried article number, an empty keyword
list (which is what `parse_query` produces whenever article numbers are
present, since the regulation branch returns early), and the non-matching
candidate's content shorter than 100000 characters (so that its
`length/1000` tie-breaker plus a possible +100 content boost stays below
the +200 metadata boost), a candidate whose `article_number` metadata
equals the queried number is placed strictly before every candidate whose
metadata does not. -/
theorem rerank_metadata_priority (qi : QueryInfo) (n : Nat) (docs : List Doc)
    (harts : qi.article_numbers = [n]) (hkw : qi.keywords = [])
    (i j : ℕ) (hi : i < (rerank_results qi docs).length)
    (hj : j < (rerank_results qi docs).length)
    (hmi : ((rerank_results qi docs).getD i ⟨"", none⟩).article_number = some n)
    (hmj : ((rerank_results qi docs).getD j ⟨"", none⟩).article_number ≠ some n)
    (hlen : ((rerank_results qi docs).getD j ⟨"", none⟩).page_content.length < 100000) :
    i < j := by
  have hscore_ge : ∀ d : Doc, d.article_number = some n → (200 : ℚ) ≤ scoreDoc qi d := by
    intro d hd
    rw [scoreDoc, harts, hkw, hd]
    simp only [List.map_cons, List.map_nil, List.sum_cons, List.sum_nil, if_pos rfl,
      eq_self_iff_true, if_true]
    have h0 : (0 : ℚ) ≤ ((d.page_content.data.map pyLower).length : ℚ) / 1000 := by
      positivity
    split <;> linarith
  have hscore_lt : ∀ d : Doc, d.article_number ≠ some n →
      d.page_content.length < 100000 → scoreDoc qi d < 200 := by
    intro d hd hl
    rw [scoreDoc, harts, hkw]
    simp only [List.map_cons, List.map_nil, List.sum_cons, List.sum_nil, if_neg hd]
    have h1 : ((d.page_content.data.map pyLower).length : ℚ) / 1000 < 100 := by
      rw [div_lt_iff₀ (by norm_num : (0 : ℚ) < 1000)]
      rw [List.length_map]
      have : d.page_content.data.length < 100000 := hl
      exact_mod_cast by push_cast; exact_mod_cast this
    split <;> linarith
  have hsorted : List.Sorted (fun a b => scoreDoc qi b ≤ scoreDoc qi a)
      (rerank_results qi docs) := by
    haveI : IsTotal Doc (fun a b => scoreDoc qi b ≤ scoreDoc qi a) :=
      ⟨fun a b => le_total _ _⟩
    haveI : IsTrans Doc (fun a b => scoreDoc qi b ≤ scoreDoc qi a) :=
      ⟨fun a b c h1 h2 => le_trans h2 h1⟩
    unfold rerank_results
    exact List.sorted_insertionSort _ _
  by_contra hij
  push_neg at hij
  have hne : j ≠ i := by
    intro he
    rw [he] at hmj
    exact hmj hmi
  have hji : j < i := lt_of_le_of_ne hij hne
  have hrel := hsorted.rel_get_of_lt (a := ⟨j, hj⟩) (b := ⟨i, hi⟩) hji
  have hgi : (rerank_results qi docs).get ⟨i, hi⟩
      = (rerank_results qi docs).getD i ⟨"", none⟩ := by
    rw [List.getD_eq_getElem _ _ hi, List.get_eq_getElem]
  have hgj : (rerank_results qi docs).get ⟨j, hj⟩
      = (rerank_results qi docs).getD j ⟨"", none⟩ := by
    rw [List.getD_eq_getElem _ _ hj, List.get_eq_getElem]
  rw [hgi, hgj] at hrel
  have h1 := hscore_ge _ hmi
  have h2 := hscore_lt _ hmj hlen
  linarith

/-- Witness for C4 (amended): with queried article 5, empty keywords and
two short candidates, the metadata-matching candidate is placed first. -/
theorem rerank_metadata_priority_witness :
    rerank_results ⟨"peraturan", [5], [], [], "specific_article", []⟩
        [⟨"", none⟩, ⟨"", some 5⟩]
      = [⟨"", some 5⟩, ⟨"", none⟩] ∧ (0 : ℕ) < 1 := by
  have hN : scoreDoc ⟨"peraturan", [5], [], [], "specific_article", []⟩ ⟨"", none⟩ = 0 := by
    rw [scoreDoc]
    norm_num
    rw [if_neg (by decide), if_neg (by decide)]
    norm_num
  have hM : scoreDoc ⟨"peraturan", [5], [], [], "specific_article", []⟩ ⟨"", some 5⟩
      = 200 := by
    rw [scoreDoc]
    norm_num
    exact ⟨by decide, by decide⟩
  have hlt : ¬ (scoreDoc ⟨"peraturan", [5], [], [], "specific_article", []⟩ ⟨"", some 5⟩
      ≤ scoreDoc ⟨"peraturan", [5], [], [], "specific_article", []⟩ ⟨"", none⟩) := by
    rw [hN, hM]
    norm_num
  have heval : rerank_results ⟨"peraturan", [5], [], [], "specific_article", []⟩
      [⟨"", none⟩, ⟨"", some 5⟩] = [⟨"", some 5⟩, ⟨"", none⟩] := by
    unfold rerank_results
    simp only [List.insertionSort, List.orderedInsert, if_neg hlt]
  refine ⟨heval, ?_⟩
  refine rerank_metadata_priority ⟨"peraturan", [5], [], [], "specific_article", []⟩ 5
    [⟨"", none⟩, ⟨"", some 5⟩] rfl rfl 0 1 ?_ ?_ ?_ ?_ ?_
  · rw [heval]; decide
  · rw [heval]; decide
  · rw [heval]; decide
  · rw [heval]; decide
  · rw [heval]; decide

/-- A stub retrieval collaborator that only answers the unfiltered top-10
lookup (used to witness the fallback branch). -/
def searchStub : String → Nat → Option SearchFilter → List Doc :=
  fun _ k f =>
    match f, k with
    | none, 10 => [⟨"fallback", none⟩]
    | _, _ => []

/-- C7: with non-empty `article_numbers`, the endpoint issues one filtered
top-5 lookup per queried number (in order) and concatenates; exactly when
the concatenation is empty it issues one unfiltered top-10 lookup.  The
function is total, so an empty filtered result is never an error. -/
theorem hybrid_search_article_branch
    (search : String → Nat → Option SearchFilter → List Doc)
    (qi : QueryInfo) (q : String) (h : qi.article_numbers ≠ []) :
    hybrid_search search qi q =
      (let gathered := qi.article_numbers.flatMap fun n => search q 5 (some (.article n));
       if gathered.isEmpty then search q 10 none else gathered) := by
  unfold hybrid_search
  have hb : (!qi.article_numbers.isEmpty) = true := by
    simpa [List.isEmpty_iff] using h
  rw [if_pos hb]

/-- Witness for C7: one queried article whose filtered lookup is empty, so
the unfiltered top-10 fallback is returned. -/
theorem hybrid_search_article_branch_witness :
    hybrid_search searchStub ⟨"peraturan", [7], [], [], "specific_article", []⟩ "q"
      = (let gathered := ([7] : List Nat).flatMap
            fun n => searchStub "q" 5 (some (.article n));
         if gathered.isEmpty then searchStub "q" 10 none else gathered) :=
  hybrid_search_article_branch searchStub
    ⟨"peraturan", [7], [], [], "specific_article", []⟩ "q" (by simp)

/-- The `row_texts` loop keeps exactly the non-internal, non-empty cells,
formatted in column order. -/
theorem rowTexts_eq (row : List (String × Option String)) :
    rowTexts row
      = (row.filter fun cv => !("_".data.isPrefixOf cv.1.data) && !(cellStr cv.2 = "")).map
          fun cv => cv.1 ++ ": " ++ cellStr cv.2 := by
  have aux : ∀ (r : List (String × Option String)) (acc : List String),
      r.foldl
        (fun acc cv =>
          if "_".data.isPrefixOf cv.1.data then acc
          else if cellStr cv.2 = "" then acc
          else acc ++ [cv.1 ++ ": " ++ cellStr cv.2])
        acc
      = acc ++ (r.filter fun cv => !("_".data.isPrefixOf cv.1.data) && !(cellStr cv.2 = "")).map
          (fun cv => cv.1 ++ ": " ++ cellStr cv.2) := by
    intro r
    induction r with
    | nil => intro acc; simp
    | cons cv t ih =>
      intro acc
      rw [List.foldl_cons, List.filter_cons]
      simp only []
      by_cases h1 : "_".data.isPrefixOf cv.1.data = true
      · rw [if_pos h1]
        have hcond : (!("_".data.isPrefixOf cv.1.data) && !(decide (cellStr cv.2 = ""))) = false := by
          rw [h1]
          rfl
        rw [hcond, if_neg (by simp)]
        exact ih acc
      · rw [if_neg h1]
        have h1f : "_".data.isPrefixOf cv.1.data = false := Bool.eq_false_iff.mpr h1
        by_cases h2 : cellStr cv.2 = ""
        · rw [if_pos h2]
          have hcond : (!("_".data.isPrefixOf cv.1.data) && !(decide (cellStr cv.2 = ""))) = false := by
            rw [h1f, decide_eq_true h2]
            rfl
          rw [hcond, if_neg (by simp)]
          exact ih acc
        · rw [if_neg h2]
          have hcond : (!("_".data.isPrefixOf cv.1.data) && !(decide (cellStr cv.2 = ""))) = true := by
            rw [h1f, decide_eq_false h2]
            rfl
          rw [hcond, if_pos rfl, ih]
          simp
  exact aux row []

/-- C8: `table_to_chunks` equals its specification: one `" | "`-joined chunk
per data row that has a non-internal non-empty cell, in row order, skipping
fully-empty rows; a table with zero non-empty rows yields `[]` rather than
an error.  The concrete part: a 3-row table whose middle row is fully empty
yields exactly its 2 non-empty rows as chunks. -/
theorem table_to_chunks_correct :
    (∀ rows : List (List (String × Option String)),
        table_to_chunks rows = table_to_chunks_spec rows)
    ∧ table_to_chunks
        [[("Kegiatan", some "Ujian"), ("Tanggal", some "12 Januari 2024"),
          ("_source_page", some "1")],
         [("Kegiatan", none), ("Tanggal", some "")],
         [("Kegiatan", some "  Libur  "), ("Tanggal", some "nan")]]
      = ["Kegiatan: Ujian | Tanggal: 12 Januari 2024", "Kegiatan: Libur"] := by
  constructor
  · intro rows
    have aux : ∀ (rs : List (List (String × Option String))) (acc : List String),
        rs.foldl
          (fun acc row =>
            if (rowTexts row).isEmpty then acc
            else acc ++ [String.intercalate " | " (rowTexts row)])
          acc
        = acc ++ table_to_chunks_spec rs := by
      intro rs
      induction rs with
      | nil => intro acc; simp [table_to_chunks_spec]
      | cons row t ih =>
        intro acc
        rw [List.foldl_cons]
        have hspec : table_to_chunks_spec (row :: t)
            = (if (rowTexts row).isEmpty then [] else [String.intercalate " | " (rowTexts row)])
              ++ table_to_chunks_spec t := by
          rw [table_to_chunks_spec, List.filterMap_cons, rowTexts_eq]
          by_cases hrow : ((row.filter fun cv =>
              !("_".data.isPrefixOf cv.1.data) && !(cellStr cv.2 = ""))).isEmpty
          · simp only [hrow, List.isEmpty_iff.mp hrow, List.map_nil, List.isEmpty_nil,
              if_true, List.nil_append]
            rfl
          · simp only [hrow, Bool.false_eq_true, if_false]
            rw [if_neg (by simpa [List.isEmpty_iff] using hrow)]
            simp only [List.singleton_append]
            rfl
        rw [hspec]
        by_cases hrow : (rowTexts row).isEmpty
        · rw [if_pos hrow, if_pos hrow, List.nil_append, ih]
        · rw [if_neg hrow, if_neg hrow, ih]
          simp
    exact aux rows []
  · rfl

/-- C2 (counterexample): even when a `pdf_path` is supplied and the table
oracle reports that the document has tables, `KalenderStrategy.chunk` does
not produce table-per-row chunks and does not skip the month-based split:
on `"Januari 2024 libur bersama"` it returns exactly the month-based text
split (one chunk tagged with `month = "Januari 2024"`). -/
theorem kalender_chunk_table_counterexample :
    KalenderStrategy.chunk (fun s => [s]) "Januari 2024 libur bersama" 2000
        (some "kalender_akademik.pdf") (fun _ => true)
      = [⟨"Januari 2024 libur bersama", some "Januari 2024"⟩]
    ∧ kalenderTextSplit (fun s => [s]) "Januari 2024 libur bersama" 2000
      = [⟨"Januari 2024 libur bersama", some "Januari 2024"⟩] :=
  ⟨rfl, rfl⟩

/-- C2 (amended): the table branch of `KalenderStrategy.chunk` is a no-op
placeholder (`pass` — "We skip for now and fallback to text-based"), so the
strategy's output never depends on the document handle or on whether the
document contains tables, and always equals the month-based text split.
(The table-per-row path for table-bearing calendar PDFs is taken by the
ingestion script instead, which calls the table extractor directly.) -/
theorem kalender_chunk_ignores_tables (splitText : String → List String)
    (text : String) (maxSize : Nat) (p1 p2 : Option String)
    (o1 o2 : String → Bool) :
    KalenderStrategy.chunk splitText text maxSize p1 o1
        = KalenderStrategy.chunk splitText text maxSize p2 o2
    ∧ KalenderStrategy.chunk splitText text maxSize p1 o1
        = kalenderTextSplit splitText text maxSize :=
  ⟨rfl, rfl⟩


/-! ### Lemmas for the Regulation strategy (claim C3) -/

theorem digit_not_space (c : Char) (h : isDigitChar c = true) : isSpaceChar c = false := by
  unfold isDigitChar at h
  unfold isSpaceChar
  simp only [Bool.and_eq_true, decide_eq_true_eq] at h
  obtain ⟨h1, h2⟩ := h
  have h1' : (48 : Nat) ≤ c.toNat := h1
  have h2' : c.toNat ≤ 57 := h2
  simp only [Bool.or_eq_false_iff, decide_eq_false_iff_not]
  refine ⟨⟨⟨⟨⟨?_, ?_⟩, ?_⟩, ?_⟩, ?_⟩, ?_⟩ <;>
    · intro he
      rw [he] at h1'
      simp at h1'

theorem takeWhile_app_of_all (p : Char → Bool) (l1 l2 : List Char)
    (h : ∀ c ∈ l1, p c = true) :
    (l1 ++ l2).takeWhile p = l1 ++ l2.takeWhile p := by
  induction l1 with
  | nil => simp
  | cons c t ih =>
    simp only [List.cons_append, List.takeWhile_cons, h c (by simp)]
    rw [ih fun d hd => h d (by simp [hd])]
    simp

theorem dropWhile_app_of_all (p : Char → Bool) (l1 l2 : List Char)
    (h : ∀ c ∈ l1, p c = true) :
    (l1 ++ l2).dropWhile p = l2.dropWhile p := by
  induction l1 with
  | nil => simp
  | cons c t ih =>
    simp only [List.cons_append, List.dropWhile_cons, h c (by simp)]
    exact ih fun d hd => h d (by simp [hd])

theorem takeWhile_all (p : Char → Bool) (l : List Char) (h : ∀ c ∈ l, p c = true) :
    l.takeWhile p = l := by
  have h2 := takeWhile_app_of_all p l [] h
  simpa using h2

theorem dropWhile_all (p : Char → Bool) (l : List Char) (h : ∀ c ∈ l, p c = true) :
    l.dropWhile p = [] := by
  have h2 := dropWhile_app_of_all p l [] h
  simpa using h2

theorem dropWhile_head_false (p : Char → Bool) (l : List Char)
    (h : ∀ c, l.head? = some c → p c = false) : l.dropWhile p = l := by
  cases l with
  | nil => rfl
  | cons c t => simp [List.dropWhile_cons, h c rfl]

theorem matchPasalAfter_inv (lb : Bool) (s m r : List Char)
    (h : matchPasalAfter lb s = some (m, r)) :
    ∃ p sp ds,
      (p = 'P' ∨ (lb = true ∧ p = 'p'))
      ∧ sp ≠ [] ∧ (∀ c ∈ sp, isSpaceChar c = true)
      ∧ ds ≠ [] ∧ (∀ c ∈ ds, isDigitChar c = true)
      ∧ m = p :: 'a' :: 's' :: 'a' :: 'l' :: (sp ++ ds)
      ∧ s = m ++ r := by
  unfold matchPasalAfter at h
  split at h
  case h_2 => simp at h
  case h_1 c0 c1 c2 c3 c4 rest =>
    split at h
    case isFalse => simp at h
    case isTrue hp =>
      dsimp only [] at h
      split at h
      case isFalse => simp at h
      case isTrue hne =>
        simp only [Option.some.injEq, Prod.mk.injEq] at h
        obtain ⟨hm, hr⟩ := h
        simp only [Bool.and_eq_true, Bool.not_eq_true', List.isEmpty_eq_false] at hne
        simp only [Bool.and_eq_true, Bool.or_eq_true, decide_eq_true_eq] at hp
        obtain ⟨⟨⟨⟨hc0, hc1⟩, hc2⟩, hc3⟩, hc4⟩ := hp
        subst hc1
        subst hc2
        subst hc3
        subst hc4
        refine ⟨c0, rest.takeWhile isSpaceChar,
          (rest.dropWhile isSpaceChar).takeWhile isDigitChar, ?_, ?_, ?_, ?_, ?_, ?_, ?_⟩
        · exact hc0
        · exact hne.1
        · exact fun c hc => List.mem_takeWhile_imp hc
        · exact hne.2
        · exact fun c hc => List.mem_takeWhile_imp hc
        · exact hm.symm
        · subst hm
          subst hr
          have hrest : rest = rest.takeWhile isSpaceChar
              ++ ((rest.dropWhile isSpaceChar).takeWhile isDigitChar
                  ++ (rest.dropWhile isSpaceChar).dropWhile isDigitChar) := by
            rw [List.takeWhile_append_dropWhile, List.takeWhile_append_dropWhile]
          conv_lhs => rw [hrest]
          simp

theorem matchPasalAfter_shape (lb : Bool) (p : Char) (sp ds X : List Char)
    (hp : p = 'P' ∨ (lb = true ∧ p = 'p'))
    (hsp : sp ≠ []) (hspall : ∀ c ∈ sp, isSpaceChar c = true)
    (hds : ds ≠ []) (hdsall : ∀ c ∈ ds, isDigitChar c = true) :
    matchPasalAfter lb (p :: 'a' :: 's' :: 'a' :: 'l' :: (sp ++ (ds ++ X)))
      = some (p :: 'a' :: 's' :: 'a' :: 'l' :: (sp ++ (ds ++ X.takeWhile isDigitChar)),
              X.dropWhile isDigitChar) := by
  obtain ⟨d, ds', rfl⟩ := List.exists_cons_of_ne_nil hds
  have hd : isDigitChar d = true := hdsall d (by simp)
  have hcond : ((p = 'P' || (lb && p = 'p')) && 'a' = 'a' && 's' = 's' && 'a' = 'a'
      && 'l' = 'l' : Bool) = true := by
    rcases hp with h | ⟨h1, h2⟩
    · simp [h]
    · simp [h1, h2]
  unfold matchPasalAfter
  dsimp only []
  rw [if_pos hcond]
  have htw : (sp ++ (d :: ds' ++ X)).takeWhile isSpaceChar = sp := by
    rw [takeWhile_app_of_all _ _ _ hspall]
    simp [List.takeWhile_cons, digit_not_space d hd]
  have hdw : (sp ++ (d :: ds' ++ X)).dropWhile isSpaceChar = d :: ds' ++ X := by
    rw [dropWhile_app_of_all _ _ _ hspall]
    simp [List.dropWhile_cons, digit_not_space d hd]
  rw [htw, hdw]
  have htw2 : (d :: ds' ++ X).takeWhile isDigitChar
      = (d :: ds') ++ X.takeWhile isDigitChar := by
    rw [List.cons_append, List.takeWhile_cons, hd]
    simp only [if_true]
    rw [takeWhile_app_of_all _ _ _ fun c hc => hdsall c (by simp [hc])]
    simp
  have hdw2 : (d :: ds' ++ X).dropWhile isDigitChar = X.dropWhile isDigitChar := by
    rw [List.cons_append, List.dropWhile_cons, hd]
    simp only [if_true]
    exact dropWhile_app_of_all _ _ _ fun c hc => hdsall c (by simp [hc])
  rw [htw2, hdw2]
  have hcond2 : (!sp.isEmpty && !((d :: ds') ++ X.takeWhile isDigitChar).isEmpty) = true := by
    simp only [Bool.and_eq_true, Bool.not_eq_true', List.isEmpty_eq_false]
    exact ⟨hsp, by simp⟩
  rw [if_pos hcond2]

theorem pasal_head_not_space (lb : Bool) (p : Char)
    (hp : p = 'P' ∨ (lb = true ∧ p = 'p')) : isSpaceChar p = false := by
  rcases hp with h | ⟨-, h⟩ <;> rw [h] <;> decide

theorem matchPasalAfter_self (lb : Bool) (s m r : List Char)
    (h : matchPasalAfter lb s = some (m, r)) :
    matchPasalAfter lb m = some (m, []) ∧ pstrip m = m ∧ m ≠ [] := by
  obtain ⟨p, sp, ds, hp, hsp, hspall, hds, hdsall, hm, -⟩ := matchPasalAfter_inv lb s m r h
  refine ⟨?_, ?_, ?_⟩
  · have hshape := matchPasalAfter_shape lb p sp ds [] hp hsp hspall hds hdsall
    simpa [hm] using hshape
  · have hdigit_last : ∀ c, m.getLast? = some c → isSpaceChar c = false := by
      intro c hc
      rw [hm] at hc
      have hlast : (p :: 'a' :: 's' :: 'a' :: 'l' :: (sp ++ ds)).getLast?
          = ds.getLast? := by
        have hds2 : ds.getLast? ≠ none := by
          simpa [List.getLast?_eq_none_iff] using hds
        show (([p, 'a', 's', 'a', 'l'] ++ sp) ++ ds).getLast? = ds.getLast?
        rw [List.getLast?_append]
        cases hcase : ds.getLast? with
        | none => exact absurd hcase hds2
        | some d => rfl
      rw [hlast] at hc
      exact digit_not_space c (hdsall c (List.mem_of_mem_getLast? hc))
    have h1 : m.dropWhile isSpaceChar = m := by
      apply dropWhile_head_false
      intro c hc
      rw [hm] at hc
      simp only [List.head?_cons, Option.some.injEq] at hc
      rw [← hc]
      exact pasal_head_not_space lb p hp
    have h2 : m.reverse.dropWhile isSpaceChar = m.reverse := by
      apply dropWhile_head_false
      intro c hc
      rw [List.head?_reverse] at hc
      exact hdigit_last c hc
    unfold pstrip
    rw [h1, h2, List.reverse_reverse]
  · rw [hm]
    simp

theorem matchPasalAfter_extend (lb : Bool) (s m r X : List Char)
    (h : matchPasalAfter lb s = some (m, r)) :
    (matchPasalAfter lb (m ++ X)).isSome = true := by
  obtain ⟨p, sp, ds, hp, hsp, hspall, hds, hdsall, hm, -⟩ := matchPasalAfter_inv lb s m r h
  rw [hm]
  have hshape := matchPasalAfter_shape lb p sp ds X hp hsp hspall hds hdsall
  have he : (p :: 'a' :: 's' :: 'a' :: 'l' :: (sp ++ ds)) ++ X
      = p :: 'a' :: 's' :: 'a' :: 'l' :: (sp ++ (ds ++ X)) := by
    simp
  rw [he, hshape]
  rfl

theorem pstrip_decomp (s : List Char) :
    ∃ u v, s = u ++ pstrip s ++ v
      ∧ (∀ c ∈ u, isSpaceChar c = true) ∧ (∀ c ∈ v, isSpaceChar c = true) := by
  refine ⟨s.takeWhile isSpaceChar,
    ((s.dropWhile isSpaceChar).reverse.takeWhile isSpaceChar).reverse, ?_, ?_, ?_⟩
  · have hw : s.dropWhile isSpaceChar
        = pstrip s
          ++ ((s.dropWhile isSpaceChar).reverse.takeWhile isSpaceChar).reverse := by
      unfold pstrip
      conv_lhs => rw [← List.reverse_reverse (s.dropWhile isSpaceChar)]
      conv_lhs =>
        rw [← List.takeWhile_append_dropWhile (p := isSpaceChar)
          (l := (s.dropWhile isSpaceChar).reverse)]
      rw [List.reverse_append]
    conv_lhs => rw [← List.takeWhile_append_dropWhile (p := isSpaceChar) (l := s)]
    rw [List.append_assoc, ← hw]
  · exact fun c hc => List.mem_takeWhile_imp hc
  · intro c hc
    rw [List.mem_reverse] at hc
    exact List.mem_takeWhile_imp hc

theorem pstrip_eq_nil_iff (l : List Char) :
    pstrip l = [] ↔ ∀ c ∈ l, isSpaceChar c = true := by
  constructor
  · intro h c hc
    obtain ⟨u, v, hdec, hu, hv⟩ := pstrip_decomp l
    rw [h] at hdec
    rw [hdec] at hc
    simp only [List.append_nil, List.mem_append] at hc
    rcases hc with h1 | h2
    · exact hu c h1
    · exact hv c h2
  · intro h
    unfold pstrip
    rw [dropWhile_all _ _ h]
    simp

theorem no_pasal_in_strip (t ctx : List Char)
    (hno : ∀ k, k < t.length → matchPasalAfter false (t.drop k ++ ctx) = none) :
    matchPasalAfter false (pstrip t) = none := by
  cases hms : matchPasalAfter false (pstrip t) with
  | none => rfl
  | some mr =>
    exfalso
    obtain ⟨m, r⟩ := mr
    obtain ⟨u, v, hdec, -, -⟩ := pstrip_decomp t
    have hne : pstrip t ≠ [] := by
      intro hnil
      rw [hnil] at hms
      simp [matchPasalAfter] at hms
    have hk : u.length < t.length := by
      rw [hdec]
      simp only [List.length_append]
      have hpos : 0 < (pstrip t).length := List.length_pos.mpr hne
      omega
    have hdrop : t.drop u.length = pstrip t ++ v := by
      conv_lhs => rw [hdec]
      rw [List.append_assoc, List.drop_left]
    have hmatch := matchPasalAfter_extend false (pstrip t) m r (r ++ (v ++ ctx)) hms
    have hnone := hno u.length hk
    rw [hdrop, List.append_assoc] at hnone
    obtain ⟨p0, sp0, ds0, -, -, -, -, -, -, hsplit0⟩ :=
      matchPasalAfter_inv false (pstrip t) m r hms
    rw [hsplit0, List.append_assoc] at hnone
    rw [hnone] at hmatch
    simp at hmatch

theorem findFrom_pasal_none :
    ∀ (s : List Char) (prev : Option Char),
      findFrom matchPasalCap prev s = none →
      ∀ k, matchPasalAfter false (s.drop k) = none := by
  intro s
  induction s with
  | nil =>
    intro prev h k
    simp only [List.drop_nil]
    rfl
  | cons c rest ih =>
    intro prev h k
    rw [findFrom] at h
    cases hma : matchPasalCap prev (c :: rest) with
    | some mr => rw [hma] at h; obtain ⟨m0, r0⟩ := mr; simp at h
    | none =>
      rw [hma] at h
      cases hf : findFrom matchPasalCap (some c) rest with
      | some pmr => rw [hf] at h; obtain ⟨p0, m0, r0⟩ := pmr; simp at h
      | none =>
        cases k with
        | zero => exact hma
        | succ k => exact ih (some c) hf k

theorem findFrom_pasal_some :
    ∀ (s : List Char) (prev : Option Char) (p m r : List Char),
      findFrom matchPasalCap prev s = some (p, m, r) →
      s = p ++ m ++ r
      ∧ matchPasalAfter false (m ++ r) = some (m, r)
      ∧ ∀ k, k < p.length → matchPasalAfter false (p.drop k ++ (m ++ r)) = none := by
  intro s
  induction s with
  | nil => intro prev p m r h; simp [findFrom] at h
  | cons c rest ih =>
    intro prev p m r h
    rw [findFrom] at h
    cases hma : matchPasalCap prev (c :: rest) with
    | some mr =>
      obtain ⟨m0, r0⟩ := mr
      rw [hma] at h
      simp only [Option.some.injEq, Prod.mk.injEq] at h
      obtain ⟨hp, hm, hr⟩ := h
      obtain ⟨-, -, -, -, -, -, -, -, -, hsplit⟩ :=
        matchPasalAfter_inv false (c :: rest) m0 r0 hma
      rw [← hp, ← hm, ← hr]
      refine ⟨by simpa using hsplit, by rw [← hsplit]; exact hma, ?_⟩
      intro k hk
      simp at hk
    | none =>
      rw [hma] at h
      cases hf : findFrom matchPasalCap (some c) rest with
      | some pmr =>
        obtain ⟨p0, m0, r0⟩ := pmr
        rw [hf] at h
        simp only [Option.some.injEq, Prod.mk.injEq] at h
        obtain ⟨hp, hm, hr⟩ := h
        obtain ⟨hsp, hself, hnone⟩ := ih (some c) p0 m0 r0 hf
        rw [← hp, ← hm, ← hr]
        refine ⟨by simp [hsp], hself, ?_⟩
        intro k hk
        cases k with
        | zero =>
          simp only [List.drop_zero, List.cons_append]
          rw [← List.append_assoc, ← hsp]
          exact hma
        | succ k =>
          simp only [List.drop_succ_cons]
          exact hnone k (by simpa using hk)
      | none => rw [hf] at h; simp at h

theorem flat_pairs_eq_nil (pairs : List (List Char × List Char))
    (h : pairs.flatMap (fun mt => [mt.1, mt.2]) = []) : pairs = [] := by
  cases pairs with
  | nil => rfl
  | cons mt t => simp [List.flatMap_cons] at h

theorem odds_flat (pre : List Char) (pairs : List (List Char × List Char)) :
    odds (pre :: pairs.flatMap (fun mt => [mt.1, mt.2])) = pairs.map Prod.fst := by
  induction pairs generalizing pre with
  | nil => simp [odds]
  | cons mt t ih =>
    simp only [List.flatMap_cons, List.map_cons]
    rw [show (([mt.1, mt.2] ++ t.flatMap fun mt => [mt.1, mt.2]) : List (List Char))
      = mt.1 :: mt.2 :: t.flatMap (fun mt => [mt.1, mt.2]) by simp]
    rw [odds]
    rw [ih mt.2]

theorem reSplit_pasal_inv :
    ∀ (fuel : Nat) (prev : Option Char) (s : List Char)
      (pre : List Char) (pairs : List (List Char × List Char)),
      s.length ≤ fuel →
      reSplitFuel matchPasalCap fuel prev s
        = pre :: pairs.flatMap (fun mt => [mt.1, mt.2]) →
      s = pre ++ (pairs.flatMap fun mt => mt.1 ++ mt.2)
      ∧ matchPasalAfter false (pstrip pre) = none
      ∧ ∀ mt ∈ pairs,
          matchPasalAfter false mt.1 = some (mt.1, [])
          ∧ pstrip mt.1 = mt.1
          ∧ matchPasalAfter false (pstrip mt.2) = none := by
  intro fuel
  induction fuel with
  | zero =>
    intro prev s pre pairs hlen h
    rw [reSplitFuel] at h
    simp only [List.cons.injEq] at h
    obtain ⟨hpre, hflat⟩ := h
    have hpairs : pairs = [] := flat_pairs_eq_nil pairs hflat.symm
    subst hpairs
    have hs : s = [] := by
      cases s with
      | nil => rfl
      | cons c t => simp at hlen
    subst hs
    refine ⟨by simp [← hpre], ?_, by simp⟩
    rw [← hpre]
    rfl
  | succ fuel ih =>
    intro prev s pre pairs hlen h
    rw [reSplitFuel] at h
    cases hf : findFrom matchPasalCap prev s with
    | none =>
      rw [hf] at h
      simp only [List.cons.injEq] at h
      obtain ⟨hpre, hflat⟩ := h
      have hpairs : pairs = [] := flat_pairs_eq_nil pairs hflat.symm
      subst hpairs
      refine ⟨by simp [← hpre], ?_, by simp⟩
      rw [← hpre]
      apply no_pasal_in_strip s []
      intro k hk
      rw [List.append_nil]
      exact findFrom_pasal_none s prev hf k
    | some pmr =>
      obtain ⟨p, m, r⟩ := pmr
      rw [hf] at h
      obtain ⟨hsplit, hself, hinner⟩ := findFrom_pasal_some s prev p m r hf
      cases pairs with
      | nil => simp at h
      | cons mt rest =>
        simp only [List.flatMap_cons, List.cons_append, List.cons.injEq] at h
        obtain ⟨hpre, hm1, htail⟩ := h
        have hrlen : r.length ≤ fuel := by
          have hm_ne : m ≠ [] := (matchPasalAfter_self false (m ++ r) m r hself).2.2
          have : s.length = p.length + m.length + r.length := by
            rw [hsplit]
            simp
            omega
          have hmpos : 0 < m.length := List.length_pos.mpr hm_ne
          omega
        have hrec := ih _ r mt.2 rest hrlen htail
        obtain ⟨hr_eq, hmt2, hrest⟩ := hrec
        refine ⟨?_, ?_, ?_⟩
        · rw [hsplit, hr_eq, hpre, hm1]
          simp only [List.flatMap_cons]
          simp [List.append_assoc]
        · rw [← hpre]
          apply no_pasal_in_strip p (m ++ r)
          intro k hk
          exact hinner k hk
        · intro mt2 hmt2mem
          rcases List.mem_cons.mp hmt2mem with h1 | h2
          · subst h1
            have hselfm := matchPasalAfter_self false (m ++ r) m r hself
            refine ⟨?_, ?_, hmt2⟩
            · rw [← hm1]
              exact hselfm.1
            · rw [← hm1]
              exact hselfm.2.1
          · exact hrest mt2 h2
theorem findFrom_at_head (pv : Option Char) (m : List Char) (hne : m ≠ [])
    (h : matchPasalAfter false m = some (m, [])) :
    findFrom matchPasalCap pv m = some ([], m, []) := by
  cases m with
  | nil => exact absurd rfl hne
  | cons c t =>
    rw [findFrom]
    have hmc : matchPasalCap pv (c :: t) = some (c :: t, []) := h
    rw [hmc]

theorem pstrip_append_isEmpty_false (m t : List Char) (hm_ne : m ≠ [])
    (hps : pstrip m = m) : (pstrip (m ++ t)).isEmpty = false := by
  have hnotall : ¬ (∀ c ∈ m ++ t, isSpaceChar c = true) := by
    intro hall
    apply hm_ne
    rw [← hps]
    exact (pstrip_eq_nil_iff m).mpr fun c hc => hall c (by simp [hc])
  have : pstrip (m ++ t) ≠ [] := fun hnil => hnotall ((pstrip_eq_nil_iff _).mp hnil)
  simpa [List.isEmpty_iff] using this

theorem peraturan_two_steps (splitText : String → List String) (maxSize : Nat)
    (mt : List Char × List Char) (chunks0 : List PChunk) (cur0 : List Char)
    (art0 : Option Nat)
    (h1 : matchPasalAfter false mt.1 = some (mt.1, []))
    (h2 : pstrip mt.1 = mt.1)
    (h3 : matchPasalAfter false (pstrip mt.2) = none)
    (h4 : (mt.1 ++ mt.2).length ≤ maxSize) :
    peraturanStep splitText maxSize
        (peraturanStep splitText maxSize (chunks0, cur0, art0) mt.1) mt.2
      = (chunks0 ++ (if (pstrip cur0).isEmpty then [] else [⟨⟨pstrip cur0⟩, art0⟩]),
         mt.1 ++ mt.2, some (pasalNum mt.1)) := by
  have hm_ne : mt.1 ≠ [] := (matchPasalAfter_self false mt.1 mt.1 [] h1).2.2
  have hstep1 : peraturanStep splitText maxSize (chunks0, cur0, art0) mt.1
      = (chunks0 ++ (if (pstrip cur0).isEmpty then [] else [⟨⟨pstrip cur0⟩, art0⟩]),
         mt.1, some (pasalNum mt.1)) := by
    unfold peraturanStep
    dsimp only []
    rw [h2, h1]
    simp only [Option.isSome_some, eq_self_iff_true, if_true]
    rw [findFrom_at_head none mt.1 hm_ne h1]
    by_cases hc : (pstrip cur0).isEmpty
    · rw [if_pos hc, if_pos hc]
      simp
    · rw [if_neg hc, if_neg hc]
  rw [hstep1]
  unfold peraturanStep
  dsimp only []
  rw [h3]
  rw [if_neg (by simp)]
  rw [if_neg (by omega)]

theorem peraturan_fold (splitText : String → List String) (maxSize : Nat) :
    ∀ (pairs : List (List Char × List Char)) (chunks0 : List PChunk)
      (cur0 : List Char) (art0 : Option Nat),
      pairs ≠ [] →
      (∀ mt ∈ pairs,
        matchPasalAfter false mt.1 = some (mt.1, [])
        ∧ pstrip mt.1 = mt.1
        ∧ matchPasalAfter false (pstrip mt.2) = none
        ∧ (mt.1 ++ mt.2).length ≤ maxSize) →
      (let st := (pairs.flatMap fun mt => [mt.1, mt.2]).foldl
          (peraturanStep splitText maxSize) (chunks0, cur0, art0)
       if (pstrip st.2.1).isEmpty then st.1
       else st.1 ++ [⟨⟨pstrip st.2.1⟩, st.2.2⟩])
      = chunks0
        ++ (if (pstrip cur0).isEmpty then [] else [⟨⟨pstrip cur0⟩, art0⟩])
        ++ pairs.map (fun mt => ⟨⟨pstrip (mt.1 ++ mt.2)⟩, some (pasalNum mt.1)⟩) := by
  intro pairs
  induction pairs with
  | nil => intro chunks0 cur0 art0 hne hfacts; exact absurd rfl hne
  | cons mt rest ih =>
    intro chunks0 cur0 art0 hne hfacts
    obtain ⟨h1, h2, h3, h4⟩ := hfacts mt (by simp)
    have hm_ne : mt.1 ≠ [] := (matchPasalAfter_self false mt.1 mt.1 [] h1).2.2
    have hpse : (pstrip (mt.1 ++ mt.2)).isEmpty = false :=
      pstrip_append_isEmpty_false mt.1 mt.2 hm_ne h2
    simp only [List.flatMap_cons, List.cons_append, List.nil_append, List.foldl_cons]
    rw [peraturan_two_steps splitText maxSize mt chunks0 cur0 art0 h1 h2 h3 h4]
    cases rest with
    | nil =>
      simp only [List.flatMap_nil, List.foldl_nil, List.map_cons, List.map_nil]
      rw [hpse]
      simp
    | cons mt2 rest2 =>
      have hih := ih
        (chunks0 ++ if (pstrip cur0).isEmpty then [] else [⟨⟨pstrip cur0⟩, art0⟩])
        (mt.1 ++ mt.2) (some (pasalNum mt.1)) (by simp)
        (fun mt3 hmt3 => hfacts mt3 (by simp [hmt3]))
      dsimp only [] at hih ⊢
      rw [hih, hpse]
      simp [List.append_assoc]

/-- C3 (amended): for a text whose `Pasal\s+\d+` split has a preamble and
`n ≥ 3` marker/text pairs, with the preamble and every article block at
most `max_chunk_size = 2000` characters (so the external overflow splitter
never runs), `detect` returns true and `chunk` yields exactly one chunk per
marker, each containing the whitespace-stripped marker-plus-text block and
tagged with its article number, preceded by the stripped preamble chunk
when the preamble is not all-whitespace; the blocks concatenate to the
original text, so the chunk contents reproduce the original text up to the
whitespace trimmed at each chunk's ends. -/
theorem peraturan_chunk_articles (splitText : String → List String)
    (fname text : String) (pre : List Char)
    (pairs : List (List Char × List Char))
    (hsplit : reSplit matchPasalCap text.data
      = pre :: pairs.flatMap (fun mt => [mt.1, mt.2]))
    (hn : 3 ≤ pairs.length)
    (hpre : pre.length ≤ 2000)
    (hblk : ∀ mt ∈ pairs, (mt.1 ++ mt.2).length ≤ 2000) :
    PeraturanStrategy.detect fname text = true
    ∧ PeraturanStrategy.chunk splitText text 2000
        = (if (pstrip pre).isEmpty then [] else [⟨⟨pstrip pre⟩, none⟩])
          ++ pairs.map (fun mt => ⟨⟨pstrip (mt.1 ++ mt.2)⟩, some (pasalNum mt.1)⟩)
    ∧ text.data = pre ++ (pairs.flatMap fun mt => mt.1 ++ mt.2) := by
  obtain ⟨hconcat, hpre_none, hpairfacts⟩ :=
    reSplit_pasal_inv text.data.length none text.data pre pairs (le_refl _) hsplit
  refine ⟨?_, ?_, hconcat⟩
  · unfold PeraturanStrategy.detect
    have hfa : reFindall matchPasalCap text.data = pairs.map Prod.fst := by
      unfold reFindall
      rw [hsplit]
      exact odds_flat pre pairs
    rw [hfa]
    simp [hn]
  · unfold PeraturanStrategy.chunk
    rw [hsplit]
    simp only [List.foldl_cons]
    have hstep_pre : peraturanStep splitText 2000 ([], [], none) pre
        = ([], pre, none) := by
      unfold peraturanStep
      dsimp only []
      rw [hpre_none]
      rw [if_neg (by simp)]
      rw [if_neg (by simpa using hpre)]
      simp
    rw [hstep_pre]
    have hne : pairs ≠ [] := by
      intro h0
      rw [h0] at hn
      simp at hn
    have hfold := peraturan_fold splitText 2000 pairs [] pre none hne
      (fun mt3 hmt3 => by
        obtain ⟨a, b, c⟩ := hpairfacts mt3 hmt3
        exact ⟨a, b, c, hblk mt3 hmt3⟩)
    dsimp only [] at hfold
    rw [hfold]
    simp

/-- C3 (counterexample): on `"Pasal 1 a Pasal 2 b Pasal 3 c"` (exactly 3
markers) `detect` is true and `chunk` yields one correctly-tagged chunk per
marker, but every chunk is whitespace-stripped, so concatenating the chunk
contents drops the boundary spaces and does not reproduce the original
text, contradicting the claim's reconstruction clause. -/
theorem peraturan_chunk_concat_counterexample :
    PeraturanStrategy.detect "dokumen.pdf" "Pasal 1 a Pasal 2 b Pasal 3 c" = true
    ∧ PeraturanStrategy.chunk (fun s => [s]) "Pasal 1 a Pasal 2 b Pasal 3 c" 2000
      = [⟨"Pasal 1 a", some 1⟩, ⟨"Pasal 2 b", some 2⟩, ⟨"Pasal 3 c", some 3⟩]
    ∧ ("Pasal 1 a" ++ "Pasal 2 b" ++ "Pasal 3 c" : String)
      ≠ "Pasal 1 a Pasal 2 b Pasal 3 c" :=
  ⟨rfl, rfl, by decide⟩

/-- Witness for C3 (amended) at the concrete text
`"Pasal 1 a Pasal 2 b Pasal 3 c"` with empty preamble and three pairs. -/
theorem peraturan_chunk_articles_witness :
    PeraturanStrategy.detect "dokumen.pdf" "Pasal 1 a Pasal 2 b Pasal 3 c" = true
    ∧ PeraturanStrategy.chunk (fun s => [s]) "Pasal 1 a Pasal 2 b Pasal 3 c" 2000
        = (if (pstrip []).isEmpty then []
           else [⟨⟨pstrip []⟩, none⟩])
          ++ ([("Pasal 1".data, " a ".data), ("Pasal 2".data, " b ".data),
               ("Pasal 3".data, " c".data)].map
              fun mt => (⟨⟨pstrip (mt.1 ++ mt.2)⟩, some (pasalNum mt.1)⟩ : PChunk))
    ∧ "Pasal 1 a Pasal 2 b Pasal 3 c".data
        = [] ++ ([("Pasal 1".data, " a ".data), ("Pasal 2".data, " b ".data),
            ("Pasal 3".data, " c".data)].flatMap fun mt => mt.1 ++ mt.2) :=
  peraturan_chunk_articles (fun s => [s]) "dokumen.pdf" "Pasal 1 a Pasal 2 b Pasal 3 c"
    [] [("Pasal 1".data, " a ".data), ("Pasal 2".data, " b ".data), ("Pasal 3".data, " c".data)]
    (by rfl) (by decide) (by decide) (by decide)
